import Mathlib

/-!
Verification of the astro orchestration core (sessions.go and collaborators).

Shallow embedding: each per-execution closure from sessions.go is translated
into a pure function from an environment of external-call outcomes to the
triple (status messages sent, Result sent, external steps invoked).  Channels
are modelled as a capacity plus the linearized list of sends.  Parts of the
repository that are referenced but not present (the cartesian helper, the
dependency-graph walker, the variable resolver, the worker pool) are modelled
from the specification and marked as such in their doc comments.
-/

namespace Astro

/-- The Result delivered on resultCh, reduced to the fields the claims are
about: the execution id and whether the err field is non-nil. -/
structure Result where
  id : String
  isErr : Bool
deriving DecidableEq, Repr, Inhabited

/-- ModuleConfig, reduced to the fields used by sessions.go: name,
dependencies and Hooks.PreModuleRun. -/
structure ModuleConfig where
  name : String
  dependencies : List String
  preModuleRun : List String
deriving DecidableEq, Repr, Inhabited

/-- A boundExecution: execution id plus its module configuration. -/
structure BoundExecution where
  id : String
  moduleConfig : ModuleConfig
deriving DecidableEq, Repr, Inhabited

/-- Outcomes of the external calls made by one execution closure:
whether newTerraformSession succeeds, whether each PreModuleRun hook
command succeeds, and whether Init/Detach/Plan/Apply succeed. -/
structure TfEnv where
  newSessionOk : Bool
  hookOk : String → Bool
  initOk : Bool
  detachOk : Bool
  planOk : Bool
  applyOk : Bool
deriving Inhabited

/-- An external step invoked by a closure. -/
inductive Step where
  | newSess : Step
  | hookCmd : String → Step
  | initTf : Step
  | detachTf : Step
  | planTf : Step
  | applyTf : Step
deriving DecidableEq, Repr, Inhabited

/-- The status line format used by every status send in sessions.go:
fmt.Sprintf("[%s] <phase>", b.ID()). -/
def statusMsg (id phase : String) : String := "[" ++ id ++ "] " ++ phase

/-- The closure built by Session.apply (sessions.go lines 123-150):
newTerraformSession, Init, Apply; one Result pushed on every path;
no PreModuleRun hooks. -/
def applyClosure (env : TfEnv) (b : BoundExecution) : List String × Result × List Step :=
  if env.newSessionOk = false then
    ([], ⟨b.id, true⟩, [Step.newSess])
  else if env.initOk = false then
    ([statusMsg b.id "Initializing..."], ⟨b.id, true⟩, [Step.newSess, Step.initTf])
  else
    ([statusMsg b.id "Initializing...", statusMsg b.id "Applying..."],
     ⟨b.id, !env.applyOk⟩, [Step.newSess, Step.initTf, Step.applyTf])

/-- The PreModuleRun hook loop shared by Session.plan and applyWithGraph:
for each hook a status line is emitted, then the command runs; the loop
stops at the first failing command.  Returns (status lines, steps, all ok). -/
def runHooks (env : TfEnv) (id : String) : List String → List String × List Step × Bool
  | [] => ([], [], true)
  | h :: rest =>
    if env.hookOk h then
      (statusMsg id "Running PreModuleRun hook..." :: (runHooks env id rest).1,
       Step.hookCmd h :: (runHooks env id rest).2.1,
       (runHooks env id rest).2.2)
    else
      ([statusMsg id "Running PreModuleRun hook..."], [Step.hookCmd h], false)

/-- The closure built by Session.plan (sessions.go lines 266-316):
newTerraformSession, PreModuleRun hooks, Init, optional Detach, Plan. -/
def planClosure (env : TfEnv) (b : BoundExecution) (detach : Bool) :
    List String × Result × List Step :=
  if env.newSessionOk = false then
    ([], ⟨b.id, true⟩, [Step.newSess])
  else if (runHooks env b.id b.moduleConfig.preModuleRun).2.2 = false then
    ((runHooks env b.id b.moduleConfig.preModuleRun).1, ⟨b.id, true⟩,
     Step.newSess :: (runHooks env b.id b.moduleConfig.preModuleRun).2.1)
  else if env.initOk = false then
    ((runHooks env b.id b.moduleConfig.preModuleRun).1 ++ [statusMsg b.id "Initializing..."],
     ⟨b.id, true⟩,
     Step.newSess :: (runHooks env b.id b.moduleConfig.preModuleRun).2.1 ++ [Step.initTf])
  else if detach then
    if env.detachOk = false then
      ((runHooks env b.id b.moduleConfig.preModuleRun).1 ++
         [statusMsg b.id "Initializing...",
          statusMsg b.id "Disconnecting remote state..."],
       ⟨b.id, true⟩,
       Step.newSess :: (runHooks env b.id b.moduleConfig.preModuleRun).2.1 ++
         [Step.initTf, Step.detachTf])
    else
      ((runHooks env b.id b.moduleConfig.preModuleRun).1 ++
         [statusMsg b.id "Initializing...",
          statusMsg b.id "Disconnecting remote state...",
          statusMsg b.id "Planning..."],
       ⟨b.id, !env.planOk⟩,
       Step.newSess :: (runHooks env b.id b.moduleConfig.preModuleRun).2.1 ++
         [Step.initTf, Step.detachTf, Step.planTf])
  else
    ((runHooks env b.id b.moduleConfig.preModuleRun).1 ++
       [statusMsg b.id "Initializing...", statusMsg b.id "Planning..."],
     ⟨b.id, !env.planOk⟩,
     Step.newSess :: (runHooks env b.id b.moduleConfig.preModuleRun).2.1 ++
       [Step.initTf, Step.planTf])

/-- The walker callback built by Session.applyWithGraph (sessions.go lines
193-242): newTerraformSession, PreModuleRun hooks, Init, Apply.  The error
the callback returns to the walker is non-nil exactly when the pushed
Result has a non-nil err, on every branch. -/
def dagClosure (env : TfEnv) (b : BoundExecution) : List String × Result × List Step :=
  if env.newSessionOk = false then
    ([], ⟨b.id, true⟩, [Step.newSess])
  else if (runHooks env b.id b.moduleConfig.preModuleRun).2.2 = false then
    ((runHooks env b.id b.moduleConfig.preModuleRun).1, ⟨b.id, true⟩,
     Step.newSess :: (runHooks env b.id b.moduleConfig.preModuleRun).2.1)
  else if env.initOk = false then
    ((runHooks env b.id b.moduleConfig.preModuleRun).1 ++ [statusMsg b.id "Initializing..."],
     ⟨b.id, true⟩,
     Step.newSess :: (runHooks env b.id b.moduleConfig.preModuleRun).2.1 ++ [Step.initTf])
  else
    ((runHooks env b.id b.moduleConfig.preModuleRun).1 ++
       [statusMsg b.id "Initializing...", statusMsg b.id "Applying..."],
     ⟨b.id, !env.applyOk⟩,
     Step.newSess :: (runHooks env b.id b.moduleConfig.preModuleRun).2.1 ++
       [Step.initTf, Step.applyTf])

/-- A Go channel as produced by the session paths: its buffer capacity,
the linearized sequence of sends, and whether the core ever closes it. -/
structure ChanReturn (α : Type) where
  capacity : Nat
  sends : List α
  closed : Bool
deriving Repr

/-- Session.apply (sessions.go lines 109-166): status buffered at N*10,
results at N; one closure per execution; close(results) is deferred after
the pool drains and statusCh is never closed. -/
def sessionApply (execs : List (BoundExecution × TfEnv)) :
    ChanReturn String × ChanReturn Result :=
  (⟨execs.length * 10, execs.flatMap (fun p => (applyClosure p.2 p.1).1), false⟩,
   ⟨execs.length, execs.map (fun p => (applyClosure p.2 p.1).2.1), true⟩)

/-- Session.plan (sessions.go lines 251-333): same channel construction,
closures from planClosure. -/
def sessionPlan (execs : List (BoundExecution × TfEnv)) (detach : Bool) :
    ChanReturn String × ChanReturn Result :=
  (⟨execs.length * 10, execs.flatMap (fun p => (planClosure p.2 p.1 detach).1), false⟩,
   ⟨execs.length, execs.map (fun p => (planClosure p.2 p.1 detach).2.1), true⟩)

/-- The dependency graph driven by applyWithGraph: vertices are the bound
executions (indexed by position), edges point from dependency to dependent.
The graph construction itself (executionSet.graph) is not under src/; the
walker consumes the abstract vertex/edge structure. -/
structure DagExec where
  execs : List (BoundExecution × TfEnv)
  edges : List (Nat × Nat)

/-- The execution at vertex v. -/
def vexec (g : DagExec) (v : Nat) : BoundExecution × TfEnv := g.execs.getD v default

/-- The Result the callback at vertex v pushes on resultCh. -/
def vresult (g : DagExec) (v : Nat) : Result := (dagClosure (vexec g v).2 (vexec g v).1).2.1

/-- Whether the callback at vertex v returns an error to the walker.  In
applyWithGraph the returned error is non-nil exactly when the pushed
Result's err is non-nil, on every branch. -/
def vfails (g : DagExec) (v : Nat) : Bool := (vresult g v).isErr

/-- The id of the execution at vertex v. -/
def idOf (g : DagExec) (v : Nat) : String := (vexec g v).1.id

/-- Direct successors of v: vertices that depend on v. -/
def succs (g : DagExec) (v : Nat) : List Nat :=
  g.edges.filterMap (fun e => if e.1 = v then some e.2 else none)

/-- Modelled from the spec: the topological walk of section 4.3 (the walker,
hashicorp/terraform/dag.Walk, is not under src/).  The walk visits vertices
in a topological linearization; a vertex whose dependency failed or was
skipped is itself skipped (its callback is never invoked) and its own
dependents are skipped in turn; every other vertex's callback runs.  Returns
the list of vertices whose callback ran, in visit order. -/
def walkAux (g : DagExec) : List Nat → List Nat → List Nat
  | _, [] => []
  | blocked, v :: rest =>
    if v ∈ blocked then walkAux g (blocked ++ succs g v) rest
    else if vfails g v then v :: walkAux g (blocked ++ succs g v) rest
    else v :: walkAux g blocked rest

/-- The sequence of Results delivered on resultCh under the DAG walk. -/
def walkResults (g : DagExec) (order : List Nat) : List Result :=
  (walkAux g [] order).map (vresult g)

/-- The linearized status messages of the DAG walk. -/
def dagStatuses (g : DagExec) (order : List Nat) : List String :=
  (walkAux g [] order).flatMap (fun v => (dagClosure (vexec g v).2 (vexec g v).1).1)

/-- The external steps invoked during the DAG walk. -/
def dagSteps (g : DagExec) (order : List Nat) : List Step :=
  (walkAux g [] order).flatMap (fun v => (dagClosure (vexec g v).2 (vexec g v).1).2.2)

/-- Reachability along dependency edges (one or more edges). -/
inductive Reaches (g : DagExec) : Nat → Nat → Prop
  | edge : ∀ {a b : Nat}, (a, b) ∈ g.edges → Reaches g a b
  | step : ∀ {a b c : Nat}, Reaches g a b → (b, c) ∈ g.edges → Reaches g a c

/-- a occurs strictly earlier than b in l. -/
def before {α : Type} (l : List α) (a b : α) : Prop := List.Sublist [a, b] l

/-- The three values returned by applyWithGraph plus the steps the walk
invokes: on a graph-construction error both channels are nil, the error is
returned synchronously and nothing runs. -/
structure DagCall where
  statusCh : Option (ChanReturn String)
  resultCh : Option (ChanReturn Result)
  err : Option String
  stepsRun : List Step

/-- Session.applyWithGraph (sessions.go lines 168-249): graph construction
happens first; on error the function returns (nil, nil, err) before the
channels are created; otherwise the channels are created with capacities
N*10 and N and the walk drives the callbacks; close(results) is deferred
and statusCh is never closed. -/
def applyWithGraphModel (ge : Except String DagExec) (order : List Nat) : DagCall :=
  match ge with
  | Except.error e => ⟨none, none, some e, []⟩
  | Except.ok g =>
    ⟨some ⟨g.execs.length * 10, dagStatuses g order, false⟩,
     some ⟨g.execs.length, walkResults g order, true⟩,
     none, dagSteps g order⟩

/-- Modelled from Go channel semantics: a for-range loop over a channel
terminates only when the channel has been closed and drained. -/
def rangeLoopEnds {α : Type} (c : ChanReturn α) : Bool := c.closed

/-- Modelled from the spec: cartesian (astro/utils.go, not under src/),
section 4.2: cartesian([]) = [[]]; cartesian(xs::rest) has the leftmost
list varying slowest. -/
def cartesian {α : Type} : List (List α) → List (List α)
  | [] => [[]]
  | xs :: rest => xs.flatMap (fun x => (cartesian rest).map (fun t => x :: t))

/-- All index vectors for lists of the given lengths, leftmost coordinate
varying slowest (the iterative counter of spec section 9). -/
def idxTuples : List Nat → List (List Nat)
  | [] => [[]]
  | n :: rest => (List.range n).flatMap (fun i => (idxTuples rest).map (fun t => i :: t))

/-- Look each index up in its candidate list. -/
def decodeTuple {α : Type} [Inhabited α] (ls : List (List α)) (idx : List Nat) : List α :=
  List.zipWith (fun xs i => xs.getD i default) ls idx

/-- Strict lexicographic order on index vectors. -/
def lexLt (s t : List Nat) : Prop := List.Lex (· < ·) s t

/-- The line printed by the signal handler goroutine (sessions.go lines
155-157): fmt.Printf("\nReceived signal: %s, cancelling all operations...\n", sig). -/
def signalMessage (name : String) : String :=
  "\nReceived signal: " ++ name ++ ", cancelling all operations...\n"

/-- The signal handler goroutine: it receives a single signal from the
session's signal channel, prints the notice once on stdout and cancels the
context; it never loops.  Returns (lines printed, context cancelled). -/
def signalHandler (sigs : List String) : List String × Bool :=
  match sigs with
  | [] => ([], false)
  | s :: _ => ([signalMessage s], true)

/-- Modelled from the spec: utils.Parallel (astro/utils.go, not under src/),
sections 4.4-4.5: once the cancellation token trips after k closures have
been dispatched, pending closures that have not started must not start.
Returns the indices of closures that start. -/
def parallelStarted (k n : Nat) : List Nat := List.range (min k n)

/-- A module variable declaration: name, optional default, optional values
whitelist ([] meaning no whitelist). -/
structure VariableDecl where
  name : String
  default : Option String
  values : List String
deriving DecidableEq, Repr, Inhabited

/-- First value bound to a name in an association list. -/
def lookupVar (n : String) : List (String × String) → Option String
  | [] => none
  | p :: rest => if p.1 = n then some p.2 else lookupVar n rest

/-- Modelled from the spec: the per-variable candidate rule of section 4.1
(the resolver is not under src/).  A user-provided value pins the variable
(UnknownValue if outside a whitelist); otherwise the whitelist fans out;
otherwise the default applies; otherwise MissingValue. -/
def candidateValues (d : VariableDecl) (userVals : List (String × String)) :
    Except String (List String) :=
  match lookupVar d.name userVals with
  | some v =>
    if d.values ≠ [] ∧ v ∉ d.values then Except.error "UnknownValue" else Except.ok [v]
  | none =>
    if d.values ≠ [] then Except.ok d.values
    else
      match d.default with
      | some dv => Except.ok [dv]
      | none => Except.error "MissingValue"

/-- Candidate lists for all declared variables of a module, in declaration
order, paired with their names. -/
def candidatesList (decls : List VariableDecl) (userVals : List (String × String)) :
    Except String (List (String × List String)) :=
  match decls with
  | [] => Except.ok []
  | d :: ds =>
    match candidateValues d userVals with
    | Except.error e => Except.error e
    | Except.ok cs =>
      match candidatesList ds userVals with
      | Except.error e => Except.error e
      | Except.ok rest => Except.ok ((d.name, cs) :: rest)

/-- All assignments of a module: the constrained cartesian product of the
candidate lists, each component labelled with its variable name. -/
def assignmentsOf : List (String × List String) → List (List (String × String))
  | [] => [[]]
  | p :: rest => p.2.flatMap (fun c => (assignmentsOf rest).map (fun t => (p.1, c) :: t))

/-- Modelled from the spec: the provisioner invocation (section 4.6, the
wrapper is not under src/) passes -var name=value for exactly the
module-declared variables of the execution's assignment and no others. -/
def tfVarArgs (assignment : List (String × String)) : List String :=
  assignment.map (fun p => "-var " ++ p.1 ++ "=" ++ p.2)

/-- Split a character list on slashes. -/
def splitSlash : List Char → List (List Char)
  | [] => [[]]
  | c :: rest =>
    if c = '/' then [] :: splitSlash rest
    else
      match splitSlash rest with
      | [] => [[c]]
      | w :: ws => (c :: w) :: ws

/-- The element loop of Go's path cleaning (path.Clean): empty and dot
elements are dropped; a dotdot element pops a previous element, is dropped
at the root, and is kept when there is nothing left to pop in a relative
path.  The stack is kept reversed. -/
def cleanParts (rooted : Bool) (stack : List (List Char)) :
    List (List Char) → List (List Char)
  | [] => stack.reverse
  | c :: rest =>
    if c = [] ∨ c = ['.'] then cleanParts rooted stack rest
    else if c = ['.', '.'] then
      match stack with
      | [] =>
        if rooted then cleanParts rooted [] rest
        else cleanParts rooted [['.', '.']] rest
      | t :: stk =>
        if t = ['.', '.'] then cleanParts rooted (c :: t :: stk) rest
        else cleanParts rooted stk rest
    else cleanParts rooted (c :: stack) rest

/-- Join path elements with slashes. -/
def joinParts : List (List Char) → List Char
  | [] => []
  | [p] => p
  | p :: q :: rest => p ++ '/' :: joinParts (q :: rest)

/-- Go's filepath.Clean (Unix rules) on a character list. -/
def cleanPathChars (s : List Char) : List Char :=
  match s with
  | [] => ['.']
  | c :: _ =>
    let rooted := c = '/'
    let parts := cleanParts rooted [] (splitSlash s)
    match parts with
    | [] => if rooted then ['/'] else ['.']
    | _ => if rooted then '/' :: joinParts parts else joinParts parts

/-- Go's filepath.Clean on strings. -/
def cleanPath (s : String) : String := ⟨cleanPathChars s.data⟩

/-- Go's filepath.Join of two elements: empty elements are dropped, the
rest joined with a slash, and the result cleaned. -/
def joinPath (a b : String) : String :=
  if a = "" then (if b = "" then "" else cleanPath b)
  else if b = "" then cleanPath a
  else cleanPath ⟨a.data ++ '/' :: b.data⟩

/-- strings.HasPrefix. -/
def hasPfx (p s : String) : Bool := List.isPrefixOf p.data s.data

/-- A zip archive member: name, directory flag and contents. -/
structure ZipFile where
  name : String
  isDir : Bool
  content : String
deriving Repr

/-- processFileContents (tvm downloader): the entry name is joined to the
destination directory; unless Clean(destDir) + "/" is a prefix of the
joined path the function fails with the illegal-path error and writes
nothing; directories create no file; files are written at the joined path.
Returns the file writes performed. -/
def processFileContents (f : ZipFile) (destDir : String) :
    Except String (List (String × String)) :=
  if !(hasPfx (cleanPath destDir ++ "/") (joinPath destDir f.name)) then
    Except.error ("illegal file path in zip: " ++ joinPath destDir f.name)
  else if f.isDir then Except.ok []
  else Except.ok [(joinPath destDir f.name, f.content)]

/-- unzip (tvm downloader): processes the archive entries in order,
stopping at the first error.  Returns the writes performed and the error,
if any. -/
def unzip (files : List ZipFile) (destDir : String) :
    List (String × String) × Option String :=
  match files with
  | [] => ([], none)
  | f :: rest =>
    match processFileContents f destDir with
    | Except.error e => ([], some e)
    | Except.ok ws => (ws ++ (unzip rest destDir).1, (unzip rest destDir).2)

/-- A concrete three-vertex instance shaped like the TestApplyFailModule
fixture: vertex 0 (users) fails on Apply, vertex 1 (app) depends on it,
vertex 2 (network) is independent. -/
def gW : DagExec :=
  ⟨[(⟨"users", ⟨"users", [], []⟩⟩, ⟨true, fun _ => true, true, true, true, false⟩),
    (⟨"app", ⟨"app", ["users"], []⟩⟩, ⟨true, fun _ => true, true, true, true, true⟩),
    (⟨"network", ⟨"network", [], []⟩⟩, ⟨true, fun _ => true, true, true, true, true⟩)],
   [(0, 1)]⟩

/-! ## Lemmas and theorems -/

theorem range_map_getD {α : Type} (xs : List α) (d : α) :
    (List.range xs.length).map (fun i => xs.getD i d) = xs := by
  induction xs with
  | nil => rfl
  | cons x xs ih =>
    rw [List.length_cons, List.range_succ_eq_map, List.map_cons, List.map_map]
    simp only [Function.comp_def, List.getD_cons_zero, List.getD_cons_succ]
    rw [ih]

theorem decodeTuple_cons {α : Type} [Inhabited α] (xs : List α) (ls : List (List α))
    (i : Nat) (idx : List Nat) :
    decodeTuple (xs :: ls) (i :: idx) = xs.getD i default :: decodeTuple ls idx := rfl

theorem cartesian_eq_decode {α : Type} [Inhabited α] (ls : List (List α)) :
    cartesian ls = (idxTuples (ls.map List.length)).map (decodeTuple ls) := by
  induction ls with
  | nil => rfl
  | cons xs rest ih =>
    calc cartesian (xs :: rest)
        = xs.flatMap (fun x => (cartesian rest).map (fun t => x :: t)) := rfl
      _ = ((List.range xs.length).map (fun i => xs.getD i default)).flatMap
            (fun x => (cartesian rest).map (fun t => x :: t)) := by
            rw [range_map_getD]
      _ = (List.range xs.length).flatMap
            (fun i => (cartesian rest).map (fun t => xs.getD i default :: t)) := by
            rw [List.flatMap_map]
      _ = (idxTuples ((xs :: rest).map List.length)).map (decodeTuple (xs :: rest)) := by
            simp only [ih, List.map_cons, idxTuples, List.map_flatMap, List.map_map,
              Function.comp_def, decodeTuple_cons]

theorem idxTuples_pairwise (lens : List Nat) : List.Pairwise lexLt (idxTuples lens) := by
  induction lens with
  | nil => simp [idxTuples]
  | cons n rest ih =>
    show List.Pairwise lexLt
      ((List.range n).flatMap (fun i => (idxTuples rest).map (fun t => i :: t)))
    rw [List.pairwise_flatMap]
    refine ⟨fun i _ => ?_, ?_⟩
    · rw [List.pairwise_map]
      exact ih.imp (fun h => List.Lex.cons h)
    · refine (List.pairwise_lt_range n).imp (fun {i j} hij => ?_)
      intro x hx y hy
      obtain ⟨t1, _, rfl⟩ := List.mem_map.1 hx
      obtain ⟨t2, _, rfl⟩ := List.mem_map.1 hy
      exact List.Lex.rel hij

/-- C2: cartesian emits tuples in lexicographic order with the leftmost
list varying slowest: on the three test lists it produces exactly the 18
tuples of the test, and in general its output is the decoding of the
index vectors enumerated in strictly increasing lexicographic order. -/
theorem c2_cartesian_lex :
    (cartesian [["a", "b", "c"], ["1", "2", "3"], ["x", "y"]] =
      [["a","1","x"], ["a","1","y"], ["a","2","x"], ["a","2","y"], ["a","3","x"], ["a","3","y"],
       ["b","1","x"], ["b","1","y"], ["b","2","x"], ["b","2","y"], ["b","3","x"], ["b","3","y"],
       ["c","1","x"], ["c","1","y"], ["c","2","x"], ["c","2","y"], ["c","3","x"], ["c","3","y"]]) ∧
    (∀ (α : Type) [Inhabited α] (ls : List (List α)),
       cartesian ls = (idxTuples (ls.map List.length)).map (decodeTuple ls)) ∧
    (∀ lens : List Nat, List.Pairwise lexLt (idxTuples lens)) :=
  ⟨rfl, fun _ _ ls => cartesian_eq_decode ls, idxTuples_pairwise⟩

theorem before_cons {α : Type} {v a b : α} {l : List α} (h : before (v :: l) a b)
    (hav : a ≠ v) : before l a b := by
  cases h with
  | cons _ h' => exact h'
  | cons₂ _ h' => exact absurd rfl hav

theorem before_head_ne {α : Type} {v a b : α} {l : List α} (hnd : (v :: l).Nodup)
    (h : before (v :: l) a b) : b ≠ v := by
  intro hbv
  subst hbv
  cases h with
  | cons _ h' => exact (List.nodup_cons.1 hnd).1 (h'.subset (by simp))
  | cons₂ _ h' => exact (List.nodup_cons.1 hnd).1 (h'.subset (by simp))

theorem before_cases {α : Type} {v a b : α} {l : List α} (h : before (v :: l) a b) :
    (a = v ∧ b ∈ l) ∨ before l a b := by
  cases h with
  | cons _ h' => exact Or.inr h'
  | cons₂ _ h' => exact Or.inl ⟨rfl, h'.subset (by simp)⟩

theorem before_sublist {α : Type} {l' l : List α} {a b : α} (hs : List.Sublist l' l)
    (hnd : l.Nodup) (ha : a ∈ l') (hb : b ∈ l') (h : before l a b) :
    before l' a b := by
  induction hs with
  | slnil => cases ha
  | cons x hs ih =>
    have hax : a ≠ x := by
      intro he
      subst he
      exact (List.nodup_cons.1 hnd).1 (hs.subset ha)
    exact ih (List.nodup_cons.1 hnd).2 ha hb (before_cons h hax)
  | @cons₂ l₁ l₂ x hs ih =>
    have hab : a ≠ b := by
      have : (([a, b] : List α)).Nodup := List.Nodup.sublist h hnd
      simpa using (List.nodup_cons.1 this).1
    have hbx : b ≠ x := by
      rcases before_cases h with ⟨rfl, hbl⟩ | h'
      · intro he; subst he; exact hab rfl
      · intro he
        subst he
        exact (List.nodup_cons.1 hnd).1 (h'.subset (by simp))
    have hb' : b ∈ l₁ := by
      rcases List.mem_cons.1 hb with rfl | hb'
      · exact absurd rfl hbx
      · exact hb'
    rcases List.mem_cons.1 ha with rfl | ha'
    · exact List.Sublist.cons₂ a (List.singleton_sublist.2 hb')
    · rcases before_cases h with ⟨rfl, _⟩ | h'
      · exact List.Sublist.cons₂ a (List.singleton_sublist.2 hb')
      · exact List.Sublist.cons x (ih (List.nodup_cons.1 hnd).2 ha' hb' h')

theorem mem_succs (g : DagExec) (a b : Nat) : b ∈ succs g a ↔ (a, b) ∈ g.edges := by
  simp only [succs, List.mem_filterMap]
  constructor
  · rintro ⟨⟨x, y⟩, he, hif⟩
    by_cases h : x = a
    · subst h
      simp only [if_pos rfl] at hif
      injection hif with h2
      subst h2
      exact he
    · simp only [if_neg h] at hif
      exact Option.noConfusion hif
  · intro h
    exact ⟨(a, b), h, by simp⟩

theorem walkAux_sublist (g : DagExec) : ∀ (order blocked : List Nat),
    List.Sublist (walkAux g blocked order) order := by
  intro order
  induction order with
  | nil => intro blocked; simp [walkAux]
  | cons v rest ih =>
    intro blocked
    simp only [walkAux]
    by_cases h1 : v ∈ blocked
    · simp only [if_pos h1]
      exact (ih _).cons v
    · simp only [if_neg h1]
      by_cases h2 : vfails g v = true
      · simp only [if_pos h2]
        exact (ih _).cons₂ v
      · simp only [if_neg h2]
        exact (ih _).cons₂ v

theorem blockedNotExec (g : DagExec) : ∀ (order blocked : List Nat) (w : Nat),
    w ∈ blocked → w ∉ walkAux g blocked order := by
  intro order
  induction order with
  | nil => intro blocked w _; simp [walkAux]
  | cons v rest ih =>
    intro blocked w hw
    simp only [walkAux]
    by_cases h1 : v ∈ blocked
    · simp only [if_pos h1]
      exact ih _ w (List.mem_append_left _ hw)
    · simp only [if_neg h1]
      have hvw : w ≠ v := fun he => h1 (he ▸ hw)
      by_cases h2 : vfails g v = true
      · simp only [if_pos h2, List.mem_cons, not_or]
        exact ⟨hvw, ih _ w (List.mem_append_left _ hw)⟩
      · simp only [if_neg h2, List.mem_cons, not_or]
        exact ⟨hvw, ih _ w hw⟩

theorem edge_exec (g : DagExec) : ∀ (order blocked : List Nat) (a b : Nat),
    order.Nodup → before order a b → b ∈ succs g a →
    b ∈ walkAux g blocked order →
    a ∈ walkAux g blocked order ∧ vfails g a = false := by
  intro order
  induction order with
  | nil => intro blocked a b _ _ _ hb; simp [walkAux] at hb
  | cons v rest ih =>
    intro blocked a b hnd hbef hsucc hb
    have hbv : b ≠ v := before_head_ne hnd hbef
    have hndr : rest.Nodup := (List.nodup_cons.1 hnd).2
    simp only [walkAux] at hb ⊢
    by_cases h1 : v ∈ blocked
    · simp only [if_pos h1] at hb ⊢
      rcases before_cases hbef with ⟨rfl, _⟩ | hbef'
      · exact absurd hb (blockedNotExec g rest _ b (List.mem_append_right _ hsucc))
      · exact ih _ a b hndr hbef' hsucc hb
    · simp only [if_neg h1] at hb ⊢
      by_cases h2 : vfails g v = true
      · simp only [if_pos h2] at hb ⊢
        rcases List.mem_cons.1 hb with rfl | hb'
        · exact absurd rfl hbv
        · rcases before_cases hbef with ⟨rfl, _⟩ | hbef'
          · exact absurd hb' (blockedNotExec g rest _ b (List.mem_append_right _ hsucc))
          · have h3 := ih _ a b hndr hbef' hsucc hb'
            exact ⟨List.mem_cons_of_mem v h3.1, h3.2⟩
      · simp only [if_neg h2] at hb ⊢
        rw [Bool.not_eq_true] at h2
        rcases List.mem_cons.1 hb with rfl | hb'
        · exact absurd rfl hbv
        · rcases before_cases hbef with ⟨rfl, _⟩ | hbef'
          · exact ⟨List.mem_cons_self _ _, h2⟩
          · have h3 := ih _ a b hndr hbef' hsucc hb'
            exact ⟨List.mem_cons_of_mem v h3.1, h3.2⟩

theorem blockPropagation (g : DagExec) : ∀ (order blocked : List Nat) (b c : Nat),
    order.Nodup → before order b c → c ∈ succs g b →
    (b ∈ blocked ∨ vfails g b = true) →
    c ∉ walkAux g blocked order := by
  intro order
  induction order with
  | nil => intro blocked b c _ _ _ _; simp [walkAux]
  | cons v rest ih =>
    intro blocked b c hnd hbef hsucc hb
    have hcv : c ≠ v := before_head_ne hnd hbef
    have hndr := (List.nodup_cons.1 hnd).2
    simp only [walkAux]
    by_cases h1 : v ∈ blocked
    · simp only [if_pos h1]
      rcases before_cases hbef with ⟨rfl, _⟩ | hbef'
      · exact blockedNotExec g rest _ c (List.mem_append_right _ hsucc)
      · exact ih _ b c hndr hbef' hsucc (hb.imp (List.mem_append_left _) id)
    · simp only [if_neg h1]
      by_cases h2 : vfails g v = true
      · simp only [if_pos h2, List.mem_cons, not_or]
        refine ⟨hcv, ?_⟩
        rcases before_cases hbef with ⟨rfl, _⟩ | hbef'
        · exact blockedNotExec g rest _ c (List.mem_append_right _ hsucc)
        · exact ih _ b c hndr hbef' hsucc (hb.imp (List.mem_append_left _) id)
      · simp only [if_neg h2, List.mem_cons, not_or]
        refine ⟨hcv, ?_⟩
        rcases before_cases hbef with ⟨rfl, _⟩ | hbef'
        · rcases hb with hbb | hbf
          · exact absurd hbb h1
          · exact absurd hbf h2
        · exact ih _ b c hndr hbef' hsucc hb

theorem notExecPropagates (g : DagExec) : ∀ (order blocked : List Nat) (b c : Nat),
    order.Nodup → before order b c → c ∈ succs g b →
    b ∉ walkAux g blocked order →
    c ∉ walkAux g blocked order := by
  intro order
  induction order with
  | nil => intro blocked b c _ _ _ _; simp [walkAux]
  | cons v rest ih =>
    intro blocked b c hnd hbef hsucc hbnot
    have hcv : c ≠ v := before_head_ne hnd hbef
    have hndr := (List.nodup_cons.1 hnd).2
    simp only [walkAux] at hbnot ⊢
    by_cases h1 : v ∈ blocked
    · simp only [if_pos h1] at hbnot ⊢
      rcases before_cases hbef with ⟨rfl, _⟩ | hbef'
      · exact blockedNotExec g rest _ c (List.mem_append_right _ hsucc)
      · exact ih _ b c hndr hbef' hsucc hbnot
    · simp only [if_neg h1] at hbnot ⊢
      by_cases h2 : vfails g v = true
      · simp only [if_pos h2, List.mem_cons, not_or] at hbnot ⊢
        refine ⟨hcv, ?_⟩
        rcases before_cases hbef with ⟨rfl, _⟩ | hbef'
        · exact absurd rfl hbnot.1
        · exact ih _ b c hndr hbef' hsucc hbnot.2
      · simp only [if_neg h2, List.mem_cons, not_or] at hbnot ⊢
        refine ⟨hcv, ?_⟩
        rcases before_cases hbef with ⟨rfl, _⟩ | hbef'
        · exact absurd rfl hbnot.1
        · exact ih _ b c hndr hbef' hsucc hbnot.2

theorem unaffectedAux (g : DagExec) : ∀ (order blocked : List Nat) (v : Nat),
    (∀ w ∈ blocked, ∃ u, vfails g u = true ∧ Reaches g u w) →
    v ∈ order →
    (∀ u, Reaches g u v → vfails g u = false) →
    v ∈ walkAux g blocked order := by
  intro order
  induction order with
  | nil => intro blocked v _ hv _; cases hv
  | cons w rest ih =>
    intro blocked v hinv hv hclean
    simp only [walkAux]
    by_cases h1 : w ∈ blocked
    · simp only [if_pos h1]
      rcases List.mem_cons.1 hv with rfl | hv'
      · obtain ⟨u, hu, hr⟩ := hinv v h1
        rw [hclean u hr] at hu
        exact absurd hu Bool.false_ne_true
      · refine ih _ v ?_ hv' hclean
        intro x hx
        rcases List.mem_append.1 hx with hxb | hxs
        · exact hinv x hxb
        · obtain ⟨u, hu, hr⟩ := hinv w h1
          exact ⟨u, hu, Reaches.step hr ((mem_succs g w x).1 hxs)⟩
    · simp only [if_neg h1]
      by_cases h2 : vfails g w = true
      · simp only [if_pos h2, List.mem_cons]
        rcases List.mem_cons.1 hv with rfl | hv'
        · exact Or.inl rfl
        · refine Or.inr (ih _ v ?_ hv' hclean)
          intro x hx
          rcases List.mem_append.1 hx with hxb | hxs
          · exact hinv x hxb
          · exact ⟨w, h2, Reaches.edge ((mem_succs g w x).1 hxs)⟩
      · simp only [if_neg h2, List.mem_cons]
        rcases List.mem_cons.1 hv with rfl | hv'
        · exact Or.inl rfl
        · exact Or.inr (ih _ v hinv hv' hclean)

theorem dagClosure_result_id (env : TfEnv) (b : BoundExecution) :
    ((dagClosure env b).2.1).id = b.id := by
  unfold dagClosure
  repeat' split
  all_goals rfl

theorem vresult_id (g : DagExec) (v : Nat) : (vresult g v).id = idOf g v :=
  dagClosure_result_id _ _

/-- C1: under DAG mode, along any topological linearization of the walk,
for every edge A→B the Result for A is delivered before the Result for B
(and A must have succeeded for B to run at all); when A's callback errors,
every vertex reachable from A is never visited and its id never appears
among the delivered Results; vertices with no failing ancestor run and
deliver their Result. -/
theorem c1_dag_order_and_skip (g : DagExec) (order : List Nat)
    (hnd : order.Nodup)
    (htopo : ∀ e ∈ g.edges, before order e.1 e.2) :
    (∀ a b, (a, b) ∈ g.edges → b ∈ walkAux g [] order →
       a ∈ walkAux g [] order ∧ vfails g a = false ∧
       before (walkAux g [] order) a b ∧
       before (walkResults g order) (vresult g a) (vresult g b)) ∧
    (∀ a b, a ∈ walkAux g [] order → vfails g a = true → Reaches g a b →
       b ∉ walkAux g [] order ∧
       (b ∈ order → (∀ i ∈ order, ∀ j ∈ order, idOf g i = idOf g j → i = j) →
          idOf g b ∉ (walkResults g order).map Result.id)) ∧
    (∀ v ∈ order, (∀ u, Reaches g u v → vfails g u = false) →
       v ∈ walkAux g [] order ∧ vresult g v ∈ walkResults g order) := by
  have hskip : ∀ a b, vfails g a = true → Reaches g a b → b ∉ walkAux g [] order := by
    intro a b hfa hr
    induction hr with
    | edge h =>
      exact blockPropagation g order [] _ _ hnd (htopo _ h)
        ((mem_succs g _ _).2 h) (Or.inr hfa)
    | step hab hbc ih =>
      exact notExecPropagates g order [] _ _ hnd (htopo _ hbc)
        ((mem_succs g _ _).2 hbc) ih
  refine ⟨?_, ?_, ?_⟩
  · intro a b hedge hb
    have h1 := edge_exec g order [] a b hnd (htopo _ hedge) ((mem_succs g _ _).2 hedge) hb
    have hbef : before (walkAux g [] order) a b :=
      before_sublist (walkAux_sublist g order []) hnd h1.1 hb (htopo _ hedge)
    refine ⟨h1.1, h1.2, hbef, ?_⟩
    simpa [walkResults] using List.Sublist.map (vresult g) hbef
  · intro a b ha hfa hr
    refine ⟨hskip a b hfa hr, ?_⟩
    intro hbo hinj hmem
    obtain ⟨r, hrmem, hrid⟩ := List.mem_map.1 hmem
    obtain ⟨v, hv, rfl⟩ := List.mem_map.1 hrmem
    have hvin : v ∈ order := (walkAux_sublist g order []).subset hv
    have hvb : v = b := hinj v hvin b hbo (by rw [← vresult_id]; exact hrid)
    exact hskip a b hfa hr (hvb ▸ hv)
  · intro v hv hclean
    have h1 : v ∈ walkAux g [] order := unaffectedAux g order [] v (by simp) hv hclean
    exact ⟨h1, List.mem_map_of_mem _ h1⟩

/-- Witness for C1 on the concrete three-vertex instance: vertex 1 (which
depends on the failing vertex 0) is skipped while the independent vertex 2
is visited. -/
theorem c1_dag_order_and_skip_witness :
    1 ∉ walkAux gW [] [0, 1, 2] ∧ 2 ∈ walkAux gW [] [0, 1, 2] := by
  have htopo : ∀ e ∈ gW.edges, before [0, 1, 2] e.1 e.2 := by
    intro e he
    have he' : e = (0, 1) := by simpa [gW] using he
    subst he'
    show List.Sublist [0, 1] [0, 1, 2]
    decide
  have h := c1_dag_order_and_skip gW [0, 1, 2] (by decide) htopo
  have honly : ∀ x y : Nat, Reaches gW x y → y = 1 := by
    intro x y hr
    induction hr with
    | edge hxy =>
      have := List.mem_singleton.1 hxy
      exact congrArg Prod.snd this
    | step hab hbc ih =>
      have := List.mem_singleton.1 hbc
      exact congrArg Prod.snd this
  constructor
  · have h0 : (0 : Nat) ∈ walkAux gW [] [0, 1, 2] := by decide
    have hf : vfails gW 0 = true := by decide
    exact (h.2.1 0 1 h0 hf (Reaches.edge (by simp [gW]))).1
  · have hcl : ∀ u, Reaches gW u 2 → vfails gW u = false := by
      intro u hr
      have h21 := honly u 2 hr
      exact absurd h21 (by decide)
    exact (h.2.2 2 (by decide) hcl).1

theorem runHooks_ok (env : TfEnv) (id : String) (hooks : List String)
    (h : ∀ c ∈ hooks, env.hookOk c = true) :
    runHooks env id hooks =
      (List.replicate hooks.length (statusMsg id "Running PreModuleRun hook..."),
       hooks.map Step.hookCmd, true) := by
  induction hooks with
  | nil => rfl
  | cons c rest ih =>
    have hc : env.hookOk c = true := h c (List.mem_cons_self _ _)
    rw [runHooks, if_pos hc, ih (fun x hx => h x (List.mem_cons_of_mem _ hx))]
    simp [List.replicate_succ]

theorem runHooks_statuses (env : TfEnv) (id : String) (hooks : List String) :
    ∃ m, m ≤ hooks.length ∧
      (runHooks env id hooks).1 =
        List.replicate m (statusMsg id "Running PreModuleRun hook...") := by
  induction hooks with
  | nil => exact ⟨0, by simp, rfl⟩
  | cons c rest ih =>
    by_cases hc : env.hookOk c = true
    · obtain ⟨m, hm, he⟩ := ih
      refine ⟨m + 1, by simpa using Nat.succ_le_succ hm, ?_⟩
      rw [runHooks, if_pos hc]
      simp [he, List.replicate_succ]
    · refine ⟨1, by simp, ?_⟩
      rw [runHooks, if_neg hc]
      simp

/-- C3 counterexample: the flat plan path does invoke PreModuleRun hook
commands — planClosure on a module with one hook runs that hook command,
refuting the claim that the flat plan path invokes none. -/
theorem c3_counterexample :
    Step.hookCmd "make prepare" ∈
      (planClosure ⟨true, fun _ => true, true, true, true, true⟩
        ⟨"foo", ⟨"foo", [], ["make prepare"]⟩⟩ false).2.2 := by decide

/-- C3 (amended): the flat apply path invokes no PreModuleRun hook
commands, while both the flat plan path and the DAG-walked apply path run
each of the module's PreModuleRun hooks before provisioner init. -/
theorem c3_hooks_asymmetry (env : TfEnv) (b : BoundExecution) (detach : Bool)
    (hs : env.newSessionOk = true)
    (hh : ∀ c ∈ b.moduleConfig.preModuleRun, env.hookOk c = true) :
    (∀ env' b' c, Step.hookCmd c ∉ (applyClosure env' b').2.2) ∧
    (∃ rest, (planClosure env b detach).2.2 =
       Step.newSess :: b.moduleConfig.preModuleRun.map Step.hookCmd ++
         Step.initTf :: rest) ∧
    (∃ rest, (dagClosure env b).2.2 =
       Step.newSess :: b.moduleConfig.preModuleRun.map Step.hookCmd ++
         Step.initTf :: rest) := by
  have hr := runHooks_ok env b.id b.moduleConfig.preModuleRun hh
  refine ⟨?_, ?_, ?_⟩
  · intro env' b' c
    unfold applyClosure
    split_ifs <;> simp
  · by_cases hi : env.initOk = false
    · exact ⟨[], by simp [planClosure, hs, hr, hi]⟩
    · by_cases hd : detach
      · by_cases hdo : env.detachOk = false
        · exact ⟨[Step.detachTf], by simp [planClosure, hs, hr, hi, hd, hdo]⟩
        · exact ⟨[Step.detachTf, Step.planTf], by simp [planClosure, hs, hr, hi, hd, hdo]⟩
      · exact ⟨[Step.planTf], by simp [planClosure, hs, hr, hi, hd]⟩
  · by_cases hi : env.initOk = false
    · exact ⟨[], by simp [dagClosure, hs, hr, hi]⟩
    · exact ⟨[Step.applyTf], by simp [dagClosure, hs, hr, hi]⟩

/-- Witness for C3 (amended) at a concrete execution with one hook. -/
theorem c3_hooks_asymmetry_witness :
    ∃ rest, (planClosure ⟨true, fun _ => true, true, true, true, true⟩
        ⟨"foo", ⟨"foo", [], ["make prepare"]⟩⟩ false).2.2 =
      Step.newSess :: (["make prepare"].map Step.hookCmd) ++ Step.initTf :: rest :=
  (c3_hooks_asymmetry ⟨true, fun _ => true, true, true, true, true⟩
    ⟨"foo", ⟨"foo", [], ["make prepare"]⟩⟩ false rfl (by decide)).2.1

/-- C6: when dependency-graph construction fails, applyWithGraph returns
the error synchronously: both channels are nil and no closure step runs. -/
theorem c6_graph_error_no_channels (e : String) (order : List Nat) :
    applyWithGraphModel (Except.error e) order = ⟨none, none, some e, []⟩ := rfl

theorem string_data_inj {s t : String} (h : s.data = t.data) : s = t := by
  cases s
  cases t
  exact congrArg String.mk (by simpa using h)

theorem statusMsg_inj {id p q : String} (h : statusMsg id p = statusMsg id q) : p = q := by
  have hd := congrArg String.data h
  simp only [statusMsg, String.data_append] at hd
  exact string_data_inj (List.append_cancel_left hd)

theorem statusMsg_ne {id p q : String} (h : p ≠ q) : statusMsg id p ≠ statusMsg id q :=
  fun he => h (statusMsg_inj he)

theorem planStatusShape (env : TfEnv) (b : BoundExecution) (detach : Bool) : ∃ m,
    (planClosure env b detach).1 =
      List.replicate m (statusMsg b.id "Running PreModuleRun hook...") ∨
    (planClosure env b detach).1 =
      List.replicate m (statusMsg b.id "Running PreModuleRun hook...") ++
        [statusMsg b.id "Initializing..."] ∨
    (detach = true ∧
      ((planClosure env b detach).1 =
         List.replicate m (statusMsg b.id "Running PreModuleRun hook...") ++
           [statusMsg b.id "Initializing...",
            statusMsg b.id "Disconnecting remote state..."] ∨
       (planClosure env b detach).1 =
         List.replicate m (statusMsg b.id "Running PreModuleRun hook...") ++
           [statusMsg b.id "Initializing...",
            statusMsg b.id "Disconnecting remote state...",
            statusMsg b.id "Planning..."])) ∨
    (detach = false ∧
      (planClosure env b detach).1 =
        List.replicate m (statusMsg b.id "Running PreModuleRun hook...") ++
          [statusMsg b.id "Initializing...", statusMsg b.id "Planning..."]) := by
  by_cases hs : env.newSessionOk = false
  · exact ⟨0, Or.inl (by simp [planClosure, hs])⟩
  · obtain ⟨m, _, hst⟩ := runHooks_statuses env b.id b.moduleConfig.preModuleRun
    refine ⟨m, ?_⟩
    by_cases hr2 : (runHooks env b.id b.moduleConfig.preModuleRun).2.2 = false
    · exact Or.inl (by simp [planClosure, hs, hr2, hst])
    · by_cases hi : env.initOk = false
      · exact Or.inr (Or.inl (by simp [planClosure, hs, hr2, hi, hst]))
      · by_cases hd : detach
        · by_cases hdo : env.detachOk = false
          · exact Or.inr (Or.inr (Or.inl ⟨hd, Or.inl
              (by simp [planClosure, hs, hr2, hi, hd, hdo, hst])⟩))
          · exact Or.inr (Or.inr (Or.inl ⟨hd, Or.inr
              (by simp [planClosure, hs, hr2, hi, hd, hdo, hst])⟩))
        · exact Or.inr (Or.inr (Or.inr ⟨by simpa using hd,
            by simp [planClosure, hs, hr2, hi, hd, hst]⟩))

theorem dagStatusShape (env : TfEnv) (b : BoundExecution) : ∃ m,
    (dagClosure env b).1 =
      List.replicate m (statusMsg b.id "Running PreModuleRun hook...") ∨
    (dagClosure env b).1 =
      List.replicate m (statusMsg b.id "Running PreModuleRun hook...") ++
        [statusMsg b.id "Initializing..."] ∨
    (dagClosure env b).1 =
      List.replicate m (statusMsg b.id "Running PreModuleRun hook...") ++
        [statusMsg b.id "Initializing...", statusMsg b.id "Applying..."] := by
  by_cases hs : env.newSessionOk = false
  · exact ⟨0, Or.inl (by simp [dagClosure, hs])⟩
  · obtain ⟨m, _, hst⟩ := runHooks_statuses env b.id b.moduleConfig.preModuleRun
    refine ⟨m, ?_⟩
    by_cases hr2 : (runHooks env b.id b.moduleConfig.preModuleRun).2.2 = false
    · exact Or.inl (by simp [dagClosure, hs, hr2, hst])
    · by_cases hi : env.initOk = false
      · exact Or.inr (Or.inl (by simp [dagClosure, hs, hr2, hi, hst]))
      · exact Or.inr (Or.inr (by simp [dagClosure, hs, hr2, hi, hst]))

theorem applyStatusShape (env : TfEnv) (b : BoundExecution) :
    (applyClosure env b).1 = [] ∨
    (applyClosure env b).1 = [statusMsg b.id "Initializing..."] ∨
    (applyClosure env b).1 =
      [statusMsg b.id "Initializing...", statusMsg b.id "Applying..."] := by
  unfold applyClosure
  split_ifs <;> simp

/-- C8: per-execution status messages appear in phase order — Initializing
before Disconnecting remote state (which is present only under detach)
before Planning on the plan path, and Initializing before Applying on both
apply paths — and every status line has the form statusMsg id phase for one
of the five phases. -/
theorem c8_status_phase_order :
    (∀ env b detach s, s ∈ (planClosure env b detach).1 →
       ∃ p, p ∈ ["Running PreModuleRun hook...", "Initializing...",
                 "Disconnecting remote state...", "Planning..."] ∧
         s = statusMsg b.id p) ∧
    (∀ env b s, s ∈ (applyClosure env b).1 →
       ∃ p, p ∈ ["Initializing...", "Applying..."] ∧ s = statusMsg b.id p) ∧
    (∀ env b s, s ∈ (dagClosure env b).1 →
       ∃ p, p ∈ ["Running PreModuleRun hook...", "Initializing...", "Applying..."] ∧
         s = statusMsg b.id p) ∧
    (∀ env b detach, statusMsg b.id "Planning..." ∈ (planClosure env b detach).1 →
       before (planClosure env b detach).1
         (statusMsg b.id "Initializing...") (statusMsg b.id "Planning...")) ∧
    (∀ env b detach,
       statusMsg b.id "Disconnecting remote state..." ∈ (planClosure env b detach).1 →
       before (planClosure env b detach).1
         (statusMsg b.id "Initializing...") (statusMsg b.id "Disconnecting remote state...")) ∧
    (∀ env b, statusMsg b.id "Planning..." ∈ (planClosure env b true).1 →
       before (planClosure env b true).1
         (statusMsg b.id "Disconnecting remote state...") (statusMsg b.id "Planning...")) ∧
    (∀ env b, statusMsg b.id "Disconnecting remote state..." ∉ (planClosure env b false).1) ∧
    (∀ env b, statusMsg b.id "Applying..." ∈ (applyClosure env b).1 →
       before (applyClosure env b).1
         (statusMsg b.id "Initializing...") (statusMsg b.id "Applying...")) ∧
    (∀ env b, statusMsg b.id "Applying..." ∈ (dagClosure env b).1 →
       before (dagClosure env b).1
         (statusMsg b.id "Initializing...") (statusMsg b.id "Applying...")) := by
  refine ⟨?_, ?_, ?_, ?_, ?_, ?_, ?_, ?_, ?_⟩
  · intro env b detach s hs
    obtain ⟨m, hsh⟩ := planStatusShape env b detach
    rcases hsh with h | h | ⟨_, h | h⟩ | ⟨_, h⟩ <;> rw [h] at hs
    · exact ⟨_, by simp, List.eq_of_mem_replicate hs⟩
    · rcases List.mem_append.1 hs with h1 | h1
      · exact ⟨_, by simp, List.eq_of_mem_replicate h1⟩
      · exact ⟨"Initializing...", by simp, by simpa using h1⟩
    · rcases List.mem_append.1 hs with h1 | h1
      · exact ⟨_, by simp, List.eq_of_mem_replicate h1⟩
      · rcases (by simpa using h1 : s = _ ∨ s = _) with rfl | rfl
        · exact ⟨"Initializing...", by simp, rfl⟩
        · exact ⟨"Disconnecting remote state...", by simp, rfl⟩
    · rcases List.mem_append.1 hs with h1 | h1
      · exact ⟨_, by simp, List.eq_of_mem_replicate h1⟩
      · rcases (by simpa using h1 : s = _ ∨ s = _ ∨ s = _) with rfl | rfl | rfl
        · exact ⟨"Initializing...", by simp, rfl⟩
        · exact ⟨"Disconnecting remote state...", by simp, rfl⟩
        · exact ⟨"Planning...", by simp, rfl⟩
    · rcases List.mem_append.1 hs with h1 | h1
      · exact ⟨_, by simp, List.eq_of_mem_replicate h1⟩
      · rcases (by simpa using h1 : s = _ ∨ s = _) with rfl | rfl
        · exact ⟨"Initializing...", by simp, rfl⟩
        · exact ⟨"Planning...", by simp, rfl⟩
  · intro env b s hs
    rcases applyStatusShape env b with h | h | h <;> rw [h] at hs
    · cases hs
    · exact ⟨"Initializing...", by simp, by simpa using hs⟩
    · rcases (by simpa using hs : s = _ ∨ s = _) with rfl | rfl
      · exact ⟨"Initializing...", by simp, rfl⟩
      · exact ⟨"Applying...", by simp, rfl⟩
  · intro env b s hs
    obtain ⟨m, hsh⟩ := dagStatusShape env b
    rcases hsh with h | h | h <;> rw [h] at hs
    · exact ⟨_, by simp, List.eq_of_mem_replicate hs⟩
    · rcases List.mem_append.1 hs with h1 | h1
      · exact ⟨_, by simp, List.eq_of_mem_replicate h1⟩
      · exact ⟨"Initializing...", by simp, by simpa using h1⟩
    · rcases List.mem_append.1 hs with h1 | h1
      · exact ⟨_, by simp, List.eq_of_mem_replicate h1⟩
      · rcases (by simpa using h1 : s = _ ∨ s = _) with rfl | rfl
        · exact ⟨"Initializing...", by simp, rfl⟩
        · exact ⟨"Applying...", by simp, rfl⟩
  · intro env b detach hP
    have nPH : statusMsg b.id "Planning..." ≠
        statusMsg b.id "Running PreModuleRun hook..." := statusMsg_ne (by decide)
    have nPI : statusMsg b.id "Planning..." ≠ statusMsg b.id "Initializing..." :=
      statusMsg_ne (by decide)
    have nPD : statusMsg b.id "Planning..." ≠
        statusMsg b.id "Disconnecting remote state..." := statusMsg_ne (by decide)
    obtain ⟨m, hsh⟩ := planStatusShape env b detach
    rcases hsh with h | h | ⟨_, h | h⟩ | ⟨_, h⟩ <;> rw [h] at hP ⊢
    · exact absurd (List.eq_of_mem_replicate hP) nPH
    · rcases List.mem_append.1 hP with h1 | h1
      · exact absurd (List.eq_of_mem_replicate h1) nPH
      · exact absurd (by simpa using h1) nPI
    · rcases List.mem_append.1 hP with h1 | h1
      · exact absurd (List.eq_of_mem_replicate h1) nPH
      · rcases (by simpa using h1 : _ = _ ∨ _ = _) with h2 | h2
        · exact absurd h2 nPI
        · exact absurd h2 nPD
    · refine List.Sublist.trans ?_ (List.sublist_append_right _ _)
      exact List.Sublist.cons₂ _ (List.Sublist.cons _ (List.Sublist.refl _))
    · refine List.Sublist.trans ?_ (List.sublist_append_right _ _)
      exact List.Sublist.cons₂ _ (List.Sublist.refl _)
  · intro env b detach hD
    have nDH : statusMsg b.id "Disconnecting remote state..." ≠
        statusMsg b.id "Running PreModuleRun hook..." := statusMsg_ne (by decide)
    have nDI : statusMsg b.id "Disconnecting remote state..." ≠
        statusMsg b.id "Initializing..." := statusMsg_ne (by decide)
    have nDP : statusMsg b.id "Disconnecting remote state..." ≠
        statusMsg b.id "Planning..." := statusMsg_ne (by decide)
    obtain ⟨m, hsh⟩ := planStatusShape env b detach
    rcases hsh with h | h | ⟨_, h | h⟩ | ⟨_, h⟩ <;> rw [h] at hD ⊢
    · exact absurd (List.eq_of_mem_replicate hD) nDH
    · rcases List.mem_append.1 hD with h1 | h1
      · exact absurd (List.eq_of_mem_replicate h1) nDH
      · exact absurd (by simpa using h1) nDI
    · refine List.Sublist.trans ?_ (List.sublist_append_right _ _)
      exact List.Sublist.refl _
    · refine List.Sublist.trans ?_ (List.sublist_append_right _ _)
      exact List.Sublist.cons₂ _ (List.Sublist.cons₂ _ (List.nil_sublist _))
    · rcases List.mem_append.1 hD with h1 | h1
      · exact absurd (List.eq_of_mem_replicate h1) nDH
      · rcases (by simpa using h1 : _ = _ ∨ _ = _) with h2 | h2
        · exact absurd h2 nDI
        · exact absurd h2 nDP
  · intro env b hP
    have nPH : statusMsg b.id "Planning..." ≠
        statusMsg b.id "Running PreModuleRun hook..." := statusMsg_ne (by decide)
    have nPI : statusMsg b.id "Planning..." ≠ statusMsg b.id "Initializing..." :=
      statusMsg_ne (by decide)
    have nPD : statusMsg b.id "Planning..." ≠
        statusMsg b.id "Disconnecting remote state..." := statusMsg_ne (by decide)
    obtain ⟨m, hsh⟩ := planStatusShape env b true
    rcases hsh with h | h | ⟨_, h | h⟩ | ⟨h0, _⟩
    · rw [h] at hP
      exact absurd (List.eq_of_mem_replicate hP) nPH
    · rw [h] at hP
      rcases List.mem_append.1 hP with h1 | h1
      · exact absurd (List.eq_of_mem_replicate h1) nPH
      · exact absurd (by simpa using h1) nPI
    · rw [h] at hP
      rcases List.mem_append.1 hP with h1 | h1
      · exact absurd (List.eq_of_mem_replicate h1) nPH
      · rcases (by simpa using h1 : _ = _ ∨ _ = _) with h2 | h2
        · exact absurd h2 nPI
        · exact absurd h2 nPD
    · rw [h]
      refine List.Sublist.trans ?_ (List.sublist_append_right _ _)
      exact List.Sublist.cons _ (List.Sublist.cons₂ _ (List.Sublist.refl _))
    · exact absurd h0 (by decide)
  · intro env b hD
    have nDH : statusMsg b.id "Disconnecting remote state..." ≠
        statusMsg b.id "Running PreModuleRun hook..." := statusMsg_ne (by decide)
    have nDI : statusMsg b.id "Disconnecting remote state..." ≠
        statusMsg b.id "Initializing..." := statusMsg_ne (by decide)
    have nDP : statusMsg b.id "Disconnecting remote state..." ≠
        statusMsg b.id "Planning..." := statusMsg_ne (by decide)
    obtain ⟨m, hsh⟩ := planStatusShape env b false
    rcases hsh with h | h | ⟨h0, _⟩ | ⟨_, h⟩
    · rw [h] at hD
      exact absurd (List.eq_of_mem_replicate hD) nDH
    · rw [h] at hD
      rcases List.mem_append.1 hD with h1 | h1
      · exact absurd (List.eq_of_mem_replicate h1) nDH
      · exact absurd (by simpa using h1) nDI
    · exact absurd h0 (by decide)
    · rw [h] at hD
      rcases List.mem_append.1 hD with h1 | h1
      · exact absurd (List.eq_of_mem_replicate h1) nDH
      · rcases (by simpa using h1 : _ = _ ∨ _ = _) with h2 | h2
        · exact absurd h2 nDI
        · exact absurd h2 nDP
  · intro env b hA
    have nAI : statusMsg b.id "Applying..." ≠ statusMsg b.id "Initializing..." :=
      statusMsg_ne (by decide)
    rcases applyStatusShape env b with h | h | h <;> rw [h] at hA ⊢
    · cases hA
    · exact absurd (by simpa using hA) nAI
    · exact List.Sublist.refl _
  · intro env b hA
    have nAH : statusMsg b.id "Applying..." ≠
        statusMsg b.id "Running PreModuleRun hook..." := statusMsg_ne (by decide)
    have nAI : statusMsg b.id "Applying..." ≠ statusMsg b.id "Initializing..." :=
      statusMsg_ne (by decide)
    obtain ⟨m, hsh⟩ := dagStatusShape env b
    rcases hsh with h | h | h <;> rw [h] at hA ⊢
    · exact absurd (List.eq_of_mem_replicate hA) nAH
    · rcases List.mem_append.1 hA with h1 | h1
      · exact absurd (List.eq_of_mem_replicate h1) nAH
      · exact absurd (by simpa using h1) nAI
    · refine List.Sublist.trans ?_ (List.sublist_append_right _ _)
      exact List.Sublist.refl _

theorem applyClosure_status_le (env : TfEnv) (b : BoundExecution) :
    (applyClosure env b).1.length ≤ 2 := by
  rcases applyStatusShape env b with h | h | h <;> simp [h]

theorem planClosure_status_le (env : TfEnv) (b : BoundExecution) (detach : Bool) :
    (planClosure env b detach).1.length ≤ b.moduleConfig.preModuleRun.length + 3 := by
  by_cases hs : env.newSessionOk = false
  · simp [planClosure, hs]
  · obtain ⟨m, hm, hst⟩ := runHooks_statuses env b.id b.moduleConfig.preModuleRun
    by_cases hr2 : (runHooks env b.id b.moduleConfig.preModuleRun).2.2 = false
    · simp [planClosure, hs, hr2, hst]
      all_goals omega
    · by_cases hi : env.initOk = false
      · simp [planClosure, hs, hr2, hi, hst]
        all_goals omega
      · by_cases hd : detach
        · by_cases hdo : env.detachOk = false
          · simp [planClosure, hs, hr2, hi, hd, hdo, hst]
            all_goals omega
          · simp [planClosure, hs, hr2, hi, hd, hdo, hst]
            all_goals omega
        · simp [planClosure, hs, hr2, hi, hd, hst]
          all_goals omega

theorem dagClosure_status_le (env : TfEnv) (b : BoundExecution) :
    (dagClosure env b).1.length ≤ b.moduleConfig.preModuleRun.length + 2 := by
  by_cases hs : env.newSessionOk = false
  · simp [dagClosure, hs]
  · obtain ⟨m, hm, hst⟩ := runHooks_statuses env b.id b.moduleConfig.preModuleRun
    by_cases hr2 : (runHooks env b.id b.moduleConfig.preModuleRun).2.2 = false
    · simp [dagClosure, hs, hr2, hst]
      all_goals omega
    · by_cases hi : env.initOk = false
      · simp [dagClosure, hs, hr2, hi, hst]
        all_goals omega
      · simp [dagClosure, hs, hr2, hi, hst]
        all_goals omega

theorem flatMap_length_le {α β : Type} (l : List α) (f : α → List β) (k : Nat)
    (h : ∀ x ∈ l, (f x).length ≤ k) : (l.flatMap f).length ≤ l.length * k := by
  induction l with
  | nil => simp
  | cons x rest ih =>
    simp only [List.flatMap_cons, List.length_append, List.length_cons]
    have h1 := h x (List.mem_cons_self _ _)
    have h2 := ih (fun y hy => h y (List.mem_cons_of_mem _ hy))
    calc (f x).length + (rest.flatMap f).length
        ≤ k + rest.length * k := Nat.add_le_add h1 h2
      _ = (rest.length + 1) * k := by rw [Nat.succ_mul, Nat.add_comm]

theorem vexec_mem (g : DagExec) (v : Nat) (h : v < g.execs.length) :
    vexec g v ∈ g.execs := by
  simp only [vexec]
  rw [List.getD_eq_getElem _ _ h]
  exact List.getElem_mem h

/-- C4 counterexample: with one execution whose module has eight
PreModuleRun hooks, the detach plan path emits 11 status messages while
the status buffer capacity is 10, so a status send blocks when no
consumer reads — refuting the claim that every send is non-blocking. -/
theorem c4_counterexample :
    ¬ ((sessionPlan [(⟨"foo", ⟨"foo", [], ["h1","h2","h3","h4","h5","h6","h7","h8"]⟩⟩,
          ⟨true, fun _ => true, true, true, true, true⟩)] true).1.sends.length ≤
        (sessionPlan [(⟨"foo", ⟨"foo", [], ["h1","h2","h3","h4","h5","h6","h7","h8"]⟩⟩,
          ⟨true, fun _ => true, true, true, true, true⟩)] true).1.capacity) := by
  decide

/-- C4 (amended): on all three paths statusCh is created with capacity
exactly 10 N and resultCh with capacity exactly N, and result sends never
exceed the result buffer; status sends stay within the status buffer
whenever every module has at most 7 PreModuleRun hooks (the flat apply
path needs no hook bound), but can exceed it with more hooks. -/
theorem c4_buffer_sizing :
    (∀ execs, (sessionApply execs).1.capacity = execs.length * 10 ∧
       (sessionApply execs).2.capacity = execs.length ∧
       (sessionApply execs).2.sends.length ≤ (sessionApply execs).2.capacity ∧
       (sessionApply execs).1.sends.length ≤ (sessionApply execs).1.capacity) ∧
    (∀ execs detach, (sessionPlan execs detach).1.capacity = execs.length * 10 ∧
       (sessionPlan execs detach).2.capacity = execs.length ∧
       (sessionPlan execs detach).2.sends.length ≤ (sessionPlan execs detach).2.capacity ∧
       ((∀ p ∈ execs, p.1.moduleConfig.preModuleRun.length ≤ 7) →
         (sessionPlan execs detach).1.sends.length ≤ (sessionPlan execs detach).1.capacity)) ∧
    (∀ g order cs cr, (applyWithGraphModel (Except.ok g) order).statusCh = some cs →
       (applyWithGraphModel (Except.ok g) order).resultCh = some cr →
       cs.capacity = g.execs.length * 10 ∧ cr.capacity = g.execs.length ∧
       (order.Nodup → (∀ v ∈ order, v < g.execs.length) →
         cr.sends.length ≤ cr.capacity ∧
         ((∀ p ∈ g.execs, p.1.moduleConfig.preModuleRun.length ≤ 7) →
           cs.sends.length ≤ cs.capacity))) := by
  refine ⟨?_, ?_, ?_⟩
  · intro execs
    refine ⟨rfl, rfl, by simp [sessionApply], ?_⟩
    exact flatMap_length_le execs _ 10
      (fun p _ => Nat.le_trans (applyClosure_status_le p.2 p.1) (by omega))
  · intro execs detach
    refine ⟨rfl, rfl, by simp [sessionPlan], ?_⟩
    intro hh
    exact flatMap_length_le execs _ 10
      (fun p hp => Nat.le_trans (planClosure_status_le p.2 p.1 detach)
        (by have := hh p hp; omega))
  · intro g order cs cr hcs hcr
    injection hcs with hcs'
    injection hcr with hcr'
    subst hcs'
    subst hcr'
    refine ⟨rfl, rfl, ?_⟩
    intro hnd hb
    have horder : order.length ≤ g.execs.length := by
      have h1 : order.length = order.toFinset.card :=
        (List.toFinset_card_of_nodup hnd).symm
      have h2 : order.toFinset ⊆ Finset.range g.execs.length :=
        fun x hx => Finset.mem_range.2 (hb x (List.mem_toFinset.1 hx))
      calc order.length = order.toFinset.card := h1
        _ ≤ (Finset.range g.execs.length).card := Finset.card_le_card h2
        _ = g.execs.length := Finset.card_range _
    have hwalk : (walkAux g [] order).length ≤ g.execs.length :=
      Nat.le_trans (walkAux_sublist g order []).length_le horder
    constructor
    · show (walkResults g order).length ≤ g.execs.length
      simpa [walkResults] using hwalk
    · intro hh
      show (dagStatuses g order).length ≤ g.execs.length * 10
      have h1 : (dagStatuses g order).length ≤ (walkAux g [] order).length * 10 := by
        refine flatMap_length_le _ _ 10 (fun v hv => ?_)
        have hvo : v ∈ order := (walkAux_sublist g order []).subset hv
        have hvm : vexec g v ∈ g.execs := vexec_mem g v (hb v hvo)
        have := hh (vexec g v) hvm
        exact Nat.le_trans (dagClosure_status_le (vexec g v).2 (vexec g v).1) (by omega)
      exact Nat.le_trans h1 (Nat.mul_le_mul_right 10 hwalk)

/-- Witness for C4 (amended): a one-hook execution on the detach plan path
keeps status sends within the buffer. -/
theorem c4_buffer_sizing_witness :
    (sessionPlan [(⟨"foo", ⟨"foo", [], ["h1"]⟩⟩,
       ⟨true, fun _ => true, true, true, true, true⟩)] true).1.sends.length ≤
      (sessionPlan [(⟨"foo", ⟨"foo", [], ["h1"]⟩⟩,
       ⟨true, fun _ => true, true, true, true, true⟩)] true).1.capacity :=
  (c4_buffer_sizing.2.1 [(⟨"foo", ⟨"foo", [], ["h1"]⟩⟩,
      ⟨true, fun _ => true, true, true, true, true⟩)] true).2.2.2 (by decide)

/-- Witness for C8: on a hookless execution with detach requested and all
calls succeeding, Initializing precedes Planning in the emitted statuses. -/
theorem c8_status_phase_order_witness :
    before (planClosure ⟨true, fun _ => true, true, true, true, true⟩
        ⟨"foo", ⟨"foo", [], []⟩⟩ true).1
      (statusMsg "foo" "Initializing...") (statusMsg "foo" "Planning...") :=
  c8_status_phase_order.2.2.2.1 ⟨true, fun _ => true, true, true, true, true⟩
    ⟨"foo", ⟨"foo", [], []⟩⟩ true (by decide)

/-- C10: the status channel is never closed by the core on any of the
three paths, while the results channel is; a consumer ranging over
statusCh therefore never sees end-of-stream. -/
theorem c10_statusCh_never_closed :
    (∀ execs, (sessionApply execs).1.closed = false ∧ (sessionApply execs).2.closed = true ∧
       rangeLoopEnds (sessionApply execs).1 = false ∧ rangeLoopEnds (sessionApply execs).2 = true) ∧
    (∀ execs detach, (sessionPlan execs detach).1.closed = false ∧
       (sessionPlan execs detach).2.closed = true ∧
       rangeLoopEnds (sessionPlan execs detach).1 = false ∧
       rangeLoopEnds (sessionPlan execs detach).2 = true) ∧
    (∀ g order, (applyWithGraphModel (Except.ok g) order).statusCh =
        some ⟨g.execs.length * 10, dagStatuses g order, false⟩ ∧
      (applyWithGraphModel (Except.ok g) order).resultCh =
        some ⟨g.execs.length, walkResults g order, true⟩ ∧
      ∀ c, (applyWithGraphModel (Except.ok g) order).statusCh = some c →
        rangeLoopEnds c = false) := by
  refine ⟨fun _ => ⟨rfl, rfl, rfl, rfl⟩, fun _ _ => ⟨rfl, rfl, rfl, rfl⟩,
    fun g order => ⟨rfl, rfl, fun c h => ?_⟩⟩
  injection h with h'
  exact h' ▸ rfl

/-- Witness for C10 on the empty execution set. -/
theorem c10_statusCh_never_closed_witness :
    (sessionApply ([] : List (BoundExecution × TfEnv))).1.closed = false ∧
    rangeLoopEnds (sessionApply ([] : List (BoundExecution × TfEnv))).1 = false :=
  ⟨(c10_statusCh_never_closed.1 []).1, (c10_statusCh_never_closed.1 []).2.2.1⟩


/-- C5: the signal handler prints the notice line exactly once for the
first signal received and cancels the context, and a cancelled worker pool
does not start pending closures. -/
theorem c5_signal_notice (name : String) (rest : List String) :
    (signalHandler (name :: rest)).1 = [signalMessage name] ∧
    (signalHandler (name :: rest)).1.length = 1 ∧
    (signalHandler (name :: rest)).2 = true ∧
    signalMessage name =
      "\n" ++ ("Received signal: " ++ name ++ ", cancelling all operations...") ++ "\n" ∧
    (∀ k n i : Nat, k ≤ i → i ∉ parallelStarted k n) := by
  refine ⟨rfl, rfl, rfl, ?_, ?_⟩
  · apply string_data_inj
    simp [signalMessage, String.data_append, List.append_assoc]
  · intro k n i hk hi
    have h1 := List.mem_range.1 hi
    omega

/-- Witness for C5 at the interrupt signal. -/
theorem c5_signal_notice_witness :
    (signalHandler ["interrupt"]).1 = [signalMessage "interrupt"] ∧
    5 ∉ parallelStarted 3 10 := by
  have h := c5_signal_notice "interrupt" []
  exact ⟨h.1, h.2.2.2.2 3 10 5 (by decide)⟩

theorem forall₂_mem_left {α β : Type} {R : α → β → Prop} {l1 : List α} {l2 : List β}
    (h : List.Forall₂ R l1 l2) : ∀ a ∈ l1, ∃ b ∈ l2, R a b := by
  induction h with
  | nil => intro a ha; cases ha
  | cons hR hrest ih =>
    intro a ha
    rcases List.mem_cons.1 ha with rfl | ha'
    · exact ⟨_, List.mem_cons_self _ _, hR⟩
    · obtain ⟨b, hb, hRb⟩ := ih a ha'
      exact ⟨b, List.mem_cons_of_mem _ hb, hRb⟩

theorem forall₂_mem_right {α β : Type} {R : α → β → Prop} {l1 : List α} {l2 : List β}
    (h : List.Forall₂ R l1 l2) : ∀ b ∈ l2, ∃ a ∈ l1, R a b := by
  induction h with
  | nil => intro b hb; cases hb
  | cons hR hrest ih =>
    intro b hb
    rcases List.mem_cons.1 hb with rfl | hb'
    · exact ⟨_, List.mem_cons_self _ _, hR⟩
    · obtain ⟨a, ha, hRa⟩ := ih b hb'
      exact ⟨a, List.mem_cons_of_mem _ ha, hRa⟩

theorem assignmentsOf_mem {pairs : List (String × List String)}
    {asg : List (String × String)} (h : asg ∈ assignmentsOf pairs) :
    List.Forall₂ (fun p q => q.1 = p.1 ∧ q.2 ∈ p.2) pairs asg := by
  induction pairs generalizing asg with
  | nil =>
    simp only [assignmentsOf, List.mem_singleton] at h
    subst h
    exact List.Forall₂.nil
  | cons p rest ih =>
    simp only [assignmentsOf, List.mem_flatMap, List.mem_map] at h
    obtain ⟨c, hc, t, ht, rfl⟩ := h
    exact List.Forall₂.cons ⟨rfl, hc⟩ (ih ht)

theorem candidatesList_forall₂ {decls : List VariableDecl} {u : List (String × String)}
    {pairs : List (String × List String)}
    (h : candidatesList decls u = Except.ok pairs) :
    List.Forall₂ (fun d p => p.1 = d.name ∧ candidateValues d u = Except.ok p.2)
      decls pairs := by
  induction decls generalizing pairs with
  | nil =>
    injection h with h'
    subst h'
    exact List.Forall₂.nil
  | cons d ds ih =>
    unfold candidatesList at h
    cases hcv : candidateValues d u with
    | error e => rw [hcv] at h; exact Except.noConfusion h
    | ok cs =>
      rw [hcv] at h
      cases hcl : candidatesList ds u with
      | error e => rw [hcl] at h; exact Except.noConfusion h
      | ok rest =>
        rw [hcl] at h
        injection h with h'
        subst h'
        exact List.Forall₂.cons ⟨rfl, hcv⟩ (ih hcl)

theorem eq_split {as bs as2 bs2 : List Char} (hc : '=' ∉ as) (hc2 : '=' ∉ as2)
    (h : as ++ '=' :: bs = as2 ++ '=' :: bs2) : as = as2 ∧ bs = bs2 := by
  induction as generalizing as2 with
  | nil =>
    cases as2 with
    | nil => simpa using h
    | cons a t =>
      injection h with h1 h2
      exact absurd (show '=' ∈ a :: t by rw [h1]; exact List.mem_cons_self _ _) hc2
  | cons a t ih =>
    cases as2 with
    | nil =>
      injection h with h1 h2
      exact absurd (show '=' ∈ a :: t by rw [← h1]; exact List.mem_cons_self _ _) hc
    | cons a2 t2 =>
      injection h with h1 h2
      subst h1
      have h3 := ih (fun hm => hc (List.mem_cons_of_mem _ hm))
        (fun hm => hc2 (List.mem_cons_of_mem _ hm)) h2
      exact ⟨by rw [h3.1], h3.2⟩

theorem varArg_inj {v w n c : String} (hv : '=' ∉ v.data) (hn : '=' ∉ n.data)
    (h : "-var " ++ v ++ "=" ++ w = "-var " ++ n ++ "=" ++ c) : v = n ∧ w = c := by
  have hd := congrArg String.data h
  simp only [String.data_append, List.append_assoc] at hd
  have hd' := List.append_cancel_left hd
  simp only [List.singleton_append] at hd'
  obtain ⟨h1, h2⟩ := eq_split hv hn hd'
  exact ⟨string_data_inj h1, string_data_inj h2⟩

/-- C7: for an execution assignment produced by the resolver, the
provisioner receives a -var argument for exactly the module-declared
variables: an undeclared variable v never appears as -var v=…, while a
declared variable pinned by the user appears as -var v=value. -/
theorem c7_variable_isolation (decls : List VariableDecl) (u : List (String × String))
    (pairs : List (String × List String)) (asg : List (String × String))
    (hpairs : candidatesList decls u = Except.ok pairs)
    (hasg : asg ∈ assignmentsOf pairs)
    (hnameq : ∀ d ∈ decls, '=' ∉ d.name.data) :
    (∀ v w : String, '=' ∉ v.data → v ∉ decls.map VariableDecl.name →
       ("-var " ++ v ++ "=" ++ w) ∉ tfVarArgs asg) ∧
    (∀ d val, d ∈ decls → lookupVar d.name u = some val →
       (d.values = [] ∨ val ∈ d.values) →
       ("-var " ++ d.name ++ "=" ++ val) ∈ tfVarArgs asg) := by
  have hf2 := candidatesList_forall₂ hpairs
  have hasgf := assignmentsOf_mem hasg
  constructor
  · intro v w hveq hv hmem
    simp only [tfVarArgs, List.mem_map] at hmem
    obtain ⟨q, hq, heq⟩ := hmem
    obtain ⟨p, hp, hq1, _⟩ := forall₂_mem_right hasgf q hq
    obtain ⟨d, hd, hp1, _⟩ := forall₂_mem_right hf2 p hp
    have hqn : '=' ∉ q.1.data := by
      rw [hq1, hp1]
      exact hnameq d hd
    have hinj := varArg_inj hqn hveq heq
    apply hv
    rw [← hinj.1, hq1, hp1]
    exact List.mem_map_of_mem _ hd
  · intro d val hd hlook hwl
    obtain ⟨p, hp, hp1, hpcv⟩ := forall₂_mem_left hf2 d hd
    have hcv : candidateValues d u = Except.ok [val] := by
      have hcond : ¬(d.values ≠ [] ∧ val ∉ d.values) := by
        rcases hwl with h0 | h0
        · simp [h0]
        · simp [h0]
      simp only [candidateValues, hlook, if_neg hcond]
    have hp2 : p.2 = [val] := by
      rw [hpcv] at hcv
      exact Except.ok.inj hcv
    obtain ⟨q, hq, hq1, hq2⟩ := forall₂_mem_left hasgf p hp
    have h2 : q.2 = val := by
      rw [hp2] at hq2
      simpa using hq2
    have h1 : q.1 = d.name := by rw [hq1, hp1]
    have harg : ("-var " ++ d.name ++ "=" ++ val) = "-var " ++ q.1 ++ "=" ++ q.2 := by
      rw [h1, h2]
    rw [harg]
    exact List.mem_map_of_mem _ hq

/-- Witness for C7 on the TestPassVariables shape: module foo (declares
only size) gets no -var region argument, module bar (declares region)
gets -var region=east1. -/
theorem c7_variable_isolation_witness :
    (("-var " ++ "region" ++ "=" ++ "east1") ∉ tfVarArgs [("size", "small")]) ∧
    (("-var " ++ "region" ++ "=" ++ "east1") ∈ tfVarArgs [("region", "east1")]) := by
  constructor
  · exact (c7_variable_isolation [⟨"size", some "small", []⟩] [("region", "east1")]
      [("size", ["small"])] [("size", "small")] rfl (by decide) (by decide)).1
      "region" "east1" (by decide) (by decide)
  · exact (c7_variable_isolation [⟨"region", none, []⟩] [("region", "east1")]
      [("region", ["east1"])] [("region", "east1")] rfl (by decide) (by decide)).2
      ⟨"region", none, []⟩ "east1" (by decide) rfl (Or.inl rfl)

theorem processFileContents_ok {f : ZipFile} {destDir : String}
    {ws : List (String × String)} (h : processFileContents f destDir = Except.ok ws) :
    hasPfx (cleanPath destDir ++ "/") (joinPath destDir f.name) = true ∧
    ∀ pc ∈ ws, pc.1 = joinPath destDir f.name := by
  unfold processFileContents at h
  cases hb : hasPfx (cleanPath destDir ++ "/") (joinPath destDir f.name) with
  | false =>
    rw [hb] at h
    simp at h
  | true =>
    rw [hb] at h
    simp only [Bool.not_true, Bool.false_eq_true, if_false] at h
    refine ⟨rfl, ?_⟩
    cases hdir : f.isDir with
    | true =>
      rw [hdir] at h
      simp only [if_true] at h
      intro pc hpc
      rw [← Except.ok.inj h] at hpc
      cases hpc
    | false =>
      rw [hdir] at h
      simp only [Bool.false_eq_true, if_false] at h
      intro pc hpc
      rw [← Except.ok.inj h] at hpc
      rw [List.mem_singleton.1 hpc]

theorem unzip_writes_inside (files : List ZipFile) (destDir : String) :
    ∀ pc ∈ (unzip files destDir).1, hasPfx (cleanPath destDir ++ "/") pc.1 = true := by
  induction files with
  | nil => intro pc hpc; simp [unzip] at hpc
  | cons f rest ih =>
    intro pc hpc
    unfold unzip at hpc
    cases hpf : processFileContents f destDir with
    | error e =>
      rw [hpf] at hpc
      simp at hpc
    | ok ws =>
      rw [hpf] at hpc
      simp only [List.mem_append] at hpc
      rcases hpc with h1 | h1
      · obtain ⟨hb, hall⟩ := processFileContents_ok hpf
        rw [hall pc h1]
        exact hb
      · exact ih pc h1

theorem unzip_error_of_bad (files : List ZipFile) (destDir : String)
    (h : ∃ f ∈ files, hasPfx (cleanPath destDir ++ "/") (joinPath destDir f.name) = false) :
    ∃ suffix, (unzip files destDir).2 = some ("illegal file path in zip" ++ suffix) := by
  induction files with
  | nil =>
    obtain ⟨f, hf, _⟩ := h
    cases hf
  | cons f rest ih =>
    obtain ⟨f0, hf0, hbad⟩ := h
    cases hpf : processFileContents f destDir with
    | error e =>
      have hpf' := hpf
      unfold processFileContents at hpf'
      cases hb : hasPfx (cleanPath destDir ++ "/") (joinPath destDir f.name) with
      | true =>
        rw [hb] at hpf'
        simp only [Bool.not_true, Bool.false_eq_true, if_false] at hpf'
        cases hdir : f.isDir with
        | true =>
          rw [hdir] at hpf'
          simp only [if_true] at hpf'
          exact Except.noConfusion hpf'
        | false =>
          rw [hdir] at hpf'
          simp only [Bool.false_eq_true, if_false] at hpf'
          exact Except.noConfusion hpf'
      | false =>
        rw [hb] at hpf'
        simp only [Bool.not_false, if_true] at hpf'
        refine ⟨": " ++ joinPath destDir f.name, ?_⟩
        show (unzip (f :: rest) destDir).2 = _
        unfold unzip
        rw [hpf]
        have he : e = "illegal file path in zip: " ++ joinPath destDir f.name :=
          (Except.error.inj hpf').symm
        rw [he]
        have hsp : ("illegal file path in zip: " : String) =
            "illegal file path in zip" ++ ": " := rfl
        rw [hsp, String.append_assoc]
    | ok ws =>
      rcases List.mem_cons.1 hf0 with rfl | hrest
      · have hpf' := hpf
        unfold processFileContents at hpf'
        rw [hbad] at hpf'
        simp at hpf'
      · obtain ⟨suffix, hsuf⟩ := ih ⟨f0, hrest, hbad⟩
        refine ⟨suffix, ?_⟩
        show (unzip (f :: rest) destDir).2 = _
        unfold unzip
        rw [hpf]
        simpa using hsuf

/-- C9: for every zip archive containing an entry whose name joined to the
destination directory and cleaned escapes the destination directory, unzip
returns an error whose message contains the literal illegal file path in
zip, and every file write unzip performs stays under the destination
directory. -/
theorem c9_zip_slip (files : List ZipFile) (destDir : String)
    (h : ∃ f ∈ files, hasPfx (cleanPath destDir ++ "/") (joinPath destDir f.name) = false) :
    (∃ suffix, (unzip files destDir).2 = some ("illegal file path in zip" ++ suffix)) ∧
    (∀ pc ∈ (unzip files destDir).1, hasPfx (cleanPath destDir ++ "/") pc.1 = true) :=
  ⟨unzip_error_of_bad files destDir h, unzip_writes_inside files destDir⟩

/-- Witness for C9 on the TestZipSlip archive: a benign README plus a
dotdot entry. -/
theorem c9_zip_slip_witness :
    (∃ suffix, (unzip [⟨"README.txt", false, "This is a zip file for testing."⟩,
        ⟨"../naughty.txt", false, "This file should never be extracted."⟩]
        "/tmp/astro-test").2 = some ("illegal file path in zip" ++ suffix)) ∧
    (∀ pc ∈ (unzip [⟨"README.txt", false, "This is a zip file for testing."⟩,
        ⟨"../naughty.txt", false, "This file should never be extracted."⟩]
        "/tmp/astro-test").1,
      hasPfx (cleanPath "/tmp/astro-test" ++ "/") pc.1 = true) :=
  c9_zip_slip _ _ (by decide)

end Astro


